import Mathlib

/-!
Shallow embedding of the GIF decoder in src/gif.rs.

Bytes are modelled as natural numbers and byte slices as lists of naturals.
A nom parser of type IResult<&[u8], T> is modelled as a total function
Bytes → Option (T × Bytes), returning some (value, rest) on success and
none on any parse error. The nom combinators the source uses (tag, take,
alt, map, map_res, pair, terminated, tuple, count, is_a, is_not,
take_while1, many1) are embedded below. nom's many1 loop treats an inner
success that consumes nothing as an error (its infinite-loop guard), so
the loop is embedded with a fuel argument that always strictly exceeds
the remaining input length, making the fuel-exhausted branch unreachable.
-/

namespace Yair

abbrev Bytes := List Nat

abbrev Parser (α : Type) := Bytes → Option (α × Bytes)

/-- nom tag: succeed exactly when the input starts with the given bytes,
consuming them. -/
def tagP (t : Bytes) : Parser Bytes := fun s =>
  if s.take t.length = t then some (t, s.drop t.length) else none

/-- nom take(n): the first n bytes, failing when fewer remain. -/
def takeP (n : Nat) : Parser Bytes := fun s =>
  if n ≤ s.length then some (s.take n, s.drop n) else none

def mapP (p : Parser α) (f : α → β) : Parser β := fun s =>
  match p s with
  | none => none
  | some (a, r) => some (f a, r)

def altP (p q : Parser α) : Parser α := fun s =>
  match p s with
  | none => q s
  | some x => some x

def pairP (p : Parser α) (q : Parser β) : Parser (α × β) := fun s =>
  match p s with
  | none => none
  | some (a, r) =>
    match q r with
    | none => none
    | some (b, r2) => some ((a, b), r2)

def terminatedP (p : Parser α) (q : Parser β) : Parser α := fun s =>
  match pairP p q s with
  | none => none
  | some (x, r) => some (x.1, r)

/-- nom take_while1: the maximal leading run of bytes satisfying f,
failing when that run is empty. -/
def takeWhile1P (f : Nat → Bool) : Parser Bytes := fun s =>
  if s.takeWhile f = [] then none
  else some (s.takeWhile f, s.drop (s.takeWhile f).length)

/-- nom is_a: maximal leading run of bytes that are in the set. -/
def isAP (set : Bytes) : Parser Bytes := takeWhile1P (fun b => set.contains b)

/-- nom is_not: maximal leading run of bytes that are not in the set. -/
def isNotP (set : Bytes) : Parser Bytes := takeWhile1P (fun b => !(set.contains b))

/-- nom count(p, n): run p exactly n times, collecting the results. -/
def countP (p : Parser α) : Nat → Parser (List α)
  | 0 => fun s => some ([], s)
  | n + 1 => fun s =>
    match p s with
    | none => none
    | some (a, r) =>
      match countP p n r with
      | none => none
      | some (as, r2) => some (a :: as, r2)

/-- The loop of nom many1 after its first success: keep parsing until the
first failure, where a success that consumes nothing is an error (nom's
infinite-loop guard). Every recursive call strictly shrinks the input, so
seeding the fuel with (input length + 1) makes the zero-fuel branch
unreachable. -/
def manyStep (p : Parser α) : Nat → Bytes → Option (List α × Bytes)
  | 0, s => some ([], s)
  | fuel + 1, s =>
    match p s with
    | none => some ([], s)
    | some (a, r) =>
      if r.length < s.length then
        match manyStep p fuel r with
        | none => none
        | some (as, r2) => some (a :: as, r2)
      else none

/-- nom many1: at least one success, then greedy repetition until the
first failure; a success that consumes nothing is an error. -/
def many1P (p : Parser α) : Parser (List α) := fun s =>
  match p s with
  | none => none
  | some (a, r) =>
    if r.length < s.length then
      match manyStep p (r.length + 1) r with
      | none => none
      | some (as, r2) => some (a :: as, r2)
    else none

/-! The data model and parsers of src/gif.rs, translated item by item. -/

inductive Version where
  | Gif87a
  | Gif89a
deriving DecidableEq

/-- The 6 bytes of the ASCII string GIF87a. -/
def gif87sig : Bytes := [71, 73, 70, 56, 55, 97]

/-- The 6 bytes of the ASCII string GIF89a. -/
def gif89sig : Bytes := [71, 73, 70, 56, 57, 97]

/-- Version::parse: alt((tag(GIF87a), tag(GIF89a))) mapped onto the enum. -/
def Version.parse : Parser Version :=
  mapP (altP (tagP gif87sig) (tagP gif89sig))
    (fun v => if v = gif87sig then Version.Gif87a else Version.Gif89a)

structure ColorTable where
  colors : List Bytes
deriving DecidableEq

/-- ColorTable::parse: count(take(size), 256), i.e. 256 entries of size
bytes each, exactly as the source has it. -/
def ColorTable.parse (input : Bytes) (size : Nat) : Option (ColorTable × Bytes) :=
  mapP (countP (takeP size) 256) (fun cs => ColorTable.mk cs) input

/-- color_table_spec: bit 7 decides presence and the size is computed as
(byte AND 0b111) * 255 + 1, exactly as the source computes it. -/
def color_table_spec (byte : Nat) : Option Nat :=
  if (byte &&& 128) >>> 7 = 1 then some ((byte &&& 7) * 255 + 1) else none

/-- u16::from_le_bytes of a 2-byte group. The source panics on a length
mismatch; the grammar only ever feeds this the result of take(2), so the
catch-all branch is unreachable. -/
def u16le (b : Bytes) : Nat :=
  match b with
  | [b0, b1] => b0 + 256 * b1
  | _ => 0

structure LogicalScreenDescriptor where
  width : Nat
  height : Nat
  global_color_table : Option ColorTable
  bg_color : Nat
  pixel_aspect : Nat
deriving DecidableEq

def LogicalScreenDescriptor.parse : Parser LogicalScreenDescriptor := fun input =>
  match pairP (takeP 2) (pairP (takeP 2) (pairP (takeP 1) (pairP (takeP 1) (takeP 1)))) input with
  | none => none
  | some ((w, h, gct, bg, px), rest) =>
    match color_table_spec (gct.headD 0) with
    | some size =>
      match ColorTable.parse rest size with
      | none => none
      | some (ct, r2) =>
        some ({ width := u16le w, height := u16le h,
                global_color_table := some ct,
                bg_color := bg.headD 0, pixel_aspect := px.headD 0 }, r2)
    | none =>
      some ({ width := u16le w, height := u16le h,
              global_color_table := none,
              bg_color := bg.headD 0, pixel_aspect := px.headD 0 }, rest)

structure ImageDescriptor where
  position : Nat × Nat
  width : Nat
  height : Nat
  local_color_table : Option ColorTable
deriving DecidableEq

/-- ImageDescriptor::parse. Note that the source hands the ORIGINAL input
slice, not the post-header remainder, to ColorTable::parse (gif.rs line
123), and this embedding reproduces that. -/
def ImageDescriptor.parse : Parser ImageDescriptor := fun input =>
  match pairP (takeP 2) (pairP (takeP 2) (pairP (takeP 2) (pairP (takeP 2) (takeP 1)))) input with
  | none => none
  | some ((x, y, w, h, lct), rest) =>
    match color_table_spec (lct.headD 0) with
    | some size =>
      match ColorTable.parse input size with
      | none => none
      | some (ct, r2) =>
        some ({ position := (u16le x, u16le y), width := u16le w,
                height := u16le h, local_color_table := some ct }, r2)
    | none =>
      some ({ position := (u16le x, u16le y), width := u16le w,
              height := u16le h, local_color_table := none }, rest)

structure Header where
  version : Version
  screen_descriptor : LogicalScreenDescriptor
deriving DecidableEq

def Header.parse : Parser Header :=
  mapP (pairP Version.parse LogicalScreenDescriptor.parse)
    (fun x => Header.mk x.1 x.2)

structure SubBlock where
  data : Bytes
deriving DecidableEq

/-- SubBlock::parse: terminated(is_not(null), tag(null)). -/
def SubBlock.parse : Parser SubBlock :=
  mapP (terminatedP (isNotP [0]) (tagP [0])) (fun d => SubBlock.mk d)

abbrev SubBlocks := List SubBlock

structure ImageData where
  bit_width : Nat
  data : SubBlocks
deriving DecidableEq

def ImageData.parse : Parser ImageData :=
  mapP (pairP (takeP 1) (many1P SubBlock.parse))
    (fun x => ImageData.mk (x.1.headD 0) x.2)

structure Image where
  image_descriptor : ImageDescriptor
  image_data : ImageData
deriving DecidableEq

def Image.parse : Parser Image :=
  mapP (pairP ImageDescriptor.parse ImageData.parse)
    (fun x => Image.mk x.1 x.2)

inductive ExtensionType where
  | GraphicControl
  | Unknown
deriving DecidableEq

/-- ExtensionType::from: the source maps every byte to Unknown. -/
def ExtensionType.fromByte (_ : Nat) : ExtensionType := ExtensionType.Unknown

structure Extension where
  ext_type : ExtensionType
  data : SubBlocks
deriving DecidableEq

def Extension.parse : Parser Extension :=
  mapP (pairP (takeP 1) (many1P SubBlock.parse))
    (fun x => Extension.mk (ExtensionType.fromByte (x.1.headD 0)) x.2)

inductive Block where
  | Image (img : Yair.Image) : Block
  | Extension (ext : Yair.Extension) : Block
deriving DecidableEq

/-- Block::parse: map_res over pair(is_a(comma bang), take_while1(not one
of comma bang semicolon)). The inner Image or Extension parser runs on the
delimited body; its own leftover is dropped, and the remainder of the
whole Block parse is whatever follows the body. -/
def Block.parse : Parser Block := fun input =>
  match pairP (isAP [44, 33]) (takeWhile1P (fun b => !(([44, 33, 59] : Bytes).contains b))) input with
  | none => none
  | some ((snt, body), rest) =>
    match snt.headD 0 with
    | 44 =>
      match Image.parse body with
      | none => none
      | some (img, _) => some (Block.Image img, rest)
    | 33 =>
      match Extension.parse body with
      | none => none
      | some (ext, _) => some (Block.Extension ext, rest)
    | _ => none

structure Gif where
  header : Header
  blocks : List Block
deriving DecidableEq

/-- Gif::parse: terminated(pair(Header::parse, many1(Block::parse)), tag(semicolon)). -/
def Gif.parse : Parser Gif :=
  mapP (terminatedP (pairP Header.parse (many1P Block.parse)) (tagP [59]))
    (fun x => Gif.mk x.1 x.2)

/-! Concrete inputs and claim-worded variants used by individual claims. -/

/-- A 265-byte image-descriptor input: nine fixed header bytes (x low
byte 170, flag byte 128 requesting a local color table of derived size 1)
followed by 256 bytes of value 7. -/
def c3input : Bytes := [170, 0, 2, 0, 3, 0, 4, 0, 128] ++ List.replicate 256 7

/-- The maximal leading run of sentinel bytes (comma or bang). -/
def sentRun (s : Bytes) : Bytes := s.takeWhile (fun b => ([44, 33] : Bytes).contains b)

/-- The maximal leading run of bytes that are none of comma, bang,
semicolon. -/
def bodyRun (s : Bytes) : Bytes := s.takeWhile (fun b => !(([44, 33, 59] : Bytes).contains b))

/-- The block dispatcher as claim C6 words it: read ONE sentinel byte,
then hand the maximal run of the following bytes not containing comma,
bang or semicolon to the decoder selected by that byte. Stated for
comparison with Block.parse, which instead consumes a maximal run of
sentinel bytes. -/
def blockParseClaimed : Parser Block := fun s =>
  match s with
  | [] => none
  | b :: rest =>
    if b = 44 then
      (Image.parse (bodyRun rest)).map
        (fun x => (Block.Image x.1, rest.drop (bodyRun rest).length))
    else if b = 33 then
      (Extension.parse (bodyRun rest)).map
        (fun x => (Block.Extension x.1, rest.drop (bodyRun rest).length))
    else none

end Yair

namespace Yair

/-! Helper lemmas about the embedded nom combinators. -/

theorem mapP_eq_some {α β : Type} {p : Parser α} {f : α → β} {s : Bytes} {b : β} {r : Bytes} :
    mapP p f s = some (b, r) ↔ ∃ a, p s = some (a, r) ∧ b = f a := by
  cases h : p s with
  | none => simp [mapP, h]
  | some x =>
    obtain ⟨a, r1⟩ := x
    simp only [mapP, h]
    constructor
    · intro hx
      obtain ⟨h1, h2⟩ := Prod.mk.injEq .. ▸ Option.some.injEq .. ▸ hx
      exact ⟨a, by simp_all⟩
    · rintro ⟨a2, ha2, hb⟩
      obtain ⟨h1, h2⟩ := Prod.mk.injEq .. ▸ Option.some.injEq .. ▸ ha2
      simp_all

theorem pairP_eq_some {α β : Type} {p : Parser α} {q : Parser β} {s : Bytes}
    {x : α × β} {r : Bytes} :
    pairP p q s = some (x, r) ↔ ∃ r1, p s = some (x.1, r1) ∧ q r1 = some (x.2, r) := by
  obtain ⟨a, b⟩ := x
  cases h : p s with
  | none => simp [pairP, h]
  | some y =>
    obtain ⟨a1, r1⟩ := y
    cases h2 : q r1 with
    | none =>
      simp only [pairP, h, h2]
      constructor
      · intro hx; cases hx
      · rintro ⟨r2, hp, hq⟩
        simp only [Option.some.injEq, Prod.mk.injEq] at hp
        obtain ⟨rfl, rfl⟩ := hp
        rw [h2] at hq
        cases hq
    | some z =>
      obtain ⟨b1, r2⟩ := z
      simp only [pairP, h, h2, Option.some.injEq, Prod.mk.injEq]
      constructor
      · rintro ⟨⟨rfl, rfl⟩, rfl⟩
        exact ⟨r1, ⟨rfl, rfl⟩, h2⟩
      · rintro ⟨r3, ⟨rfl, rfl⟩, hq⟩
        rw [h2] at hq
        simp only [Option.some.injEq, Prod.mk.injEq] at hq
        obtain ⟨rfl, rfl⟩ := hq
        exact ⟨⟨rfl, rfl⟩, rfl⟩

theorem terminatedP_eq_some {α β : Type} {p : Parser α} {q : Parser β} {s : Bytes}
    {a : α} {r : Bytes} :
    terminatedP p q s = some (a, r) ↔ ∃ r1 b, p s = some (a, r1) ∧ q r1 = some (b, r) := by
  unfold terminatedP
  cases h : pairP p q s with
  | none =>
    simp only []
    constructor
    · intro hx; cases hx
    · rintro ⟨r1, b, hp, hq⟩
      have hc : pairP p q s = some ((a, b), r) := pairP_eq_some.mpr ⟨r1, hp, hq⟩
      rw [h] at hc
      cases hc
  | some y =>
    obtain ⟨⟨a1, b1⟩, r1⟩ := y
    obtain ⟨rm, hp, hq⟩ := pairP_eq_some.mp h
    simp only [Option.some.injEq, Prod.mk.injEq]
    constructor
    · rintro ⟨rfl, rfl⟩
      exact ⟨rm, b1, hp, hq⟩
    · rintro ⟨r2, b2, hp2, hq2⟩
      have hc : pairP p q s = some ((a, b2), r) := pairP_eq_some.mpr ⟨r2, hp2, hq2⟩
      rw [h] at hc
      simp only [Option.some.injEq, Prod.mk.injEq] at hc
      obtain ⟨⟨rfl, rfl⟩, rfl⟩ := hc
      exact ⟨rfl, rfl⟩

theorem tagP_single_iff {t : Nat} {s v r : Bytes} :
    tagP [t] s = some (v, r) ↔ s = t :: r ∧ v = [t] := by
  cases s with
  | nil => simp [tagP]
  | cons a tl =>
    by_cases h : a = t
    · subst h
      simp only [tagP, List.length_cons, List.length_nil, List.take, List.drop]
      aesop
    · simp only [tagP, List.length_cons, List.length_nil, List.take, List.drop]
      aesop

theorem tagP_none_of_short {t s : Bytes} (h : s.length < t.length) : tagP t s = none := by
  unfold tagP
  rw [if_neg]
  intro hc
  have := congrArg List.length hc
  simp only [List.length_take] at this
  omega

theorem many1P_ne_nil {α : Type} {p : Parser α} {s : Bytes} {bs : List α} {r : Bytes}
    (h : many1P p s = some (bs, r)) : bs ≠ [] := by
  unfold many1P at h
  cases hp : p s with
  | none => simp [hp] at h
  | some x =>
    obtain ⟨a, r1⟩ := x
    simp only [hp] at h
    by_cases hl : r1.length < s.length
    · simp only [if_pos hl] at h
      cases hm : manyStep p (r1.length + 1) r1 with
      | none => simp [hm] at h
      | some y =>
        obtain ⟨as2, r2⟩ := y
        simp only [hm, Option.some.injEq, Prod.mk.injEq] at h
        obtain ⟨h1, h2⟩ := h
        intro hnil
        rw [← h1] at hnil
        cases hnil
    · simp only [if_neg hl] at h
      cases h

theorem takeWhile_all_append {f : Nat → Bool} {l1 l2 : Bytes} (h : ∀ c ∈ l1, f c = true) :
    (l1 ++ l2).takeWhile f = l1 ++ l2.takeWhile f := by
  induction l1 with
  | nil => simp
  | cons a tl ih =>
    have ha : f a = true := h a (by simp)
    simp only [List.cons_append, List.takeWhile_cons, ha, if_true]
    rw [ih (fun c hc => h c (by simp [hc]))]

end Yair

namespace Yair

set_option maxRecDepth 100000

/-! Claim theorems. -/

/-- Claim C1: the claim says the flag decoder yields presence exactly on
bit 7 and an entry count of 2^((b AND 7) + 1), so byte 129 should give 4
entries. The code computes the size linearly: on the claim's own example
byte 129 it returns 256 entries, not 4, while the presence halves of the
example (byte 129 present, byte 0 absent) do hold. -/
theorem c1_color_table_spec_linear :
    color_table_spec 129 = some 256 ∧
    color_table_spec 129 ≠ some 4 ∧
    color_table_spec 0 = none :=
  ⟨rfl, by decide, rfl⟩

/-- Claim C2: the claim says ColorTable decoding reads N entries of 3
bytes each, so entry count 2 should consume exactly 6 bytes. The code
instead runs count(take(size), 256): on a 6-byte slice with entry count 2
it fails, and on a 512-byte slice it returns 256 entries of 2 bytes,
consuming all 512 bytes. -/
theorem c2_color_table_256_entries :
    ColorTable.parse (List.replicate 6 7) 2 = none ∧
    (ColorTable.parse (List.replicate 512 9) 2).map
      (fun x => (x.1.colors.length, x.2.length)) = some (256, 0) :=
  ⟨rfl, rfl⟩

/-- Claim C3: the claim says a present local color table is decoded from
the slice remainder after the nine fixed header bytes. On c3input (nine
header bytes, first byte 170, then 256 bytes of 7) the code succeeds and
its first color entry is [170] — the x-coordinate byte at the start of the
block — with 9 bytes left over, showing the table was read from the
original block-start slice rather than the post-header remainder (which
holds only the value 7). -/
theorem c3_local_table_from_block_start :
    (ImageDescriptor.parse c3input).map
      (fun x => (x.1.local_color_table.map (fun ct => ct.colors.headD []), x.2.length)) =
      some (some [170], 9) :=
  rfl

/-- Claim C4: the claim says the discriminating label byte is recoverable
from a parsed Extension. The code maps every label byte to
ExtensionType.Unknown and drops it: two extension bodies that differ only
in their label byte (50 versus 51) parse to identical Extension values,
so no function of the result can recover the label. -/
theorem c4_extension_label_not_retained :
    Extension.parse [50, 97, 0] = Extension.parse [51, 97, 0] ∧
    Extension.parse [50, 97, 0] =
      some (Extension.mk ExtensionType.Unknown [SubBlock.mk [97]], []) :=
  ⟨rfl, rfl⟩

/-- Claim C7: SubBlock parsing of bytes abc-null yields data [a, b, c]
consuming all 4 bytes with empty remainder, and one-or-more SubBlocks
parsing of abc-null-def-null yields exactly the two sub-blocks with
nothing left over. -/
theorem c7_sub_blocks :
    SubBlock.parse [97, 98, 99, 0] = some (SubBlock.mk [97, 98, 99], []) ∧
    many1P SubBlock.parse [97, 98, 99, 0, 100, 101, 102, 0] =
      some ([SubBlock.mk [97, 98, 99], SubBlock.mk [100, 101, 102]], []) :=
  ⟨rfl, rfl⟩

/-- Claim C9: on every input shorter than 6 bytes Version parsing returns
the failure value (and, being a total function, cannot panic). -/
theorem c9_version_short_input_fails (s : Bytes) (h : s.length < 6) :
    Version.parse s = none := by
  have h87 : tagP gif87sig s = none := tagP_none_of_short (by simp [gif87sig]; omega)
  have h89 : tagP gif89sig s = none := tagP_none_of_short (by simp [gif89sig]; omega)
  simp [Version.parse, mapP, altP, h87, h89]

/-- Claim C6 counterexample: on the input bang bang 50 97 0 the claim
dictates failure (after the single leading sentinel byte, the maximal run
of following bytes free of comma, bang and semicolon is empty, so the
Extension decoder is handed an empty body and fails), but the code
consumes BOTH leading bang bytes via is_a and parses successfully. -/
theorem c6_counterexample :
    blockParseClaimed [33, 33, 50, 97, 0] = none ∧
    Block.parse [33, 33, 50, 97, 0] =
      some (Block.Extension (Extension.mk ExtensionType.Unknown [SubBlock.mk [97]]), []) :=
  ⟨rfl, rfl⟩

/-- Claim C6 amended: for every input whose first byte is not comma (44)
and not bang (33), Block parsing fails; when the first byte is one of
these two, the dispatcher consumes the maximal leading run of sentinel
bytes (one or more commas and bangs), then hands the maximal run of the
subsequent bytes not containing comma, bang or semicolon (which must be
nonempty) to the Image decoder if the first byte is a comma, or the
Extension decoder if it is a bang; the remainder is whatever follows that
run. -/
theorem c6_amended_dispatch (b : Nat) (rest : Bytes) :
    Block.parse (b :: rest) =
      if b = 44 ∨ b = 33 then
        if bodyRun ((b :: rest).drop (sentRun (b :: rest)).length) = [] then none
        else if b = 44 then
          (Image.parse (bodyRun ((b :: rest).drop (sentRun (b :: rest)).length))).map
            (fun x => (Block.Image x.1,
              ((b :: rest).drop (sentRun (b :: rest)).length).drop
                (bodyRun ((b :: rest).drop (sentRun (b :: rest)).length)).length))
        else
          (Extension.parse (bodyRun ((b :: rest).drop (sentRun (b :: rest)).length))).map
            (fun x => (Block.Extension x.1,
              ((b :: rest).drop (sentRun (b :: rest)).length).drop
                (bodyRun ((b :: rest).drop (sentRun (b :: rest)).length)).length))
      else none := by
  by_cases hb : b = 44 ∨ b = 33
  · rw [if_pos hb]
    have hsent : (b :: rest).takeWhile (fun c => ([44, 33] : Bytes).contains c) =
        b :: rest.takeWhile (fun c => ([44, 33] : Bytes).contains c) := by
      rcases hb with rfl | rfl <;> rfl
    have h1 : isAP [44, 33] (b :: rest) =
        some (b :: rest.takeWhile (fun c => ([44, 33] : Bytes).contains c),
          rest.drop (rest.takeWhile (fun c => ([44, 33] : Bytes).contains c)).length) := by
      unfold isAP takeWhile1P
      rw [hsent, if_neg (List.cons_ne_nil _ _)]
      simp only [List.length_cons, List.drop_succ_cons]
    unfold sentRun bodyRun
    rw [hsent]
    simp only [List.length_cons, List.drop_succ_cons]
    set A := rest.drop (rest.takeWhile (fun c => ([44, 33] : Bytes).contains c)).length with hA
    by_cases hbody : A.takeWhile (fun c => !(([44, 33, 59] : Bytes).contains c)) = []
    · have h2 : takeWhile1P (fun c => !(([44, 33, 59] : Bytes).contains c)) A = none := by
        unfold takeWhile1P
        rw [if_pos hbody]
      unfold Block.parse pairP
      rw [h1]
      simp only []
      rw [h2]
      simp only [if_pos hbody]
    · have h2 : takeWhile1P (fun c => !(([44, 33, 59] : Bytes).contains c)) A =
          some (A.takeWhile (fun c => !(([44, 33, 59] : Bytes).contains c)),
            A.drop (A.takeWhile (fun c => !(([44, 33, 59] : Bytes).contains c))).length) := by
        unfold takeWhile1P
        rw [if_neg hbody]
      unfold Block.parse pairP
      rw [h1]
      simp only []
      rw [h2]
      simp only [if_neg hbody, List.headD_cons]
      rcases hb with rfl | rfl
      · simp only [if_pos rfl]
        cases himg : Image.parse (A.takeWhile (fun c => !(([44, 33, 59] : Bytes).contains c))) with
        | none => simp [himg]
        | some y => simp [himg]
      · simp only []
        cases hext : Extension.parse (A.takeWhile (fun c => !(([44, 33, 59] : Bytes).contains c))) with
        | none => simp [hext]
        | some y => simp [hext]
  · rw [if_neg hb]
    push_neg at hb
    have hf : (([44, 33] : Bytes).contains b) = false := by
      simp only [List.contains, List.elem_cons, List.elem_nil]
      have h44 : (b == 44) = false := by simp [hb.1]
      have h33 : (b == 33) = false := by simp [hb.2]
      simp [h44, h33]
    have hsent : (b :: rest).takeWhile (fun c => ([44, 33] : Bytes).contains c) = [] := by
      rw [List.takeWhile_cons, hf]
      simp
    have h1 : isAP [44, 33] (b :: rest) = none := by
      unfold isAP takeWhile1P
      rw [hsent, if_pos rfl]
    unfold Block.parse pairP
    rw [h1]

/-- Witness for C9 at the 3-byte input GIF. -/
theorem c9_witness :
    ([71, 73, 70] : Bytes).length < 6 ∧ Version.parse [71, 73, 70] = none :=
  ⟨by decide, c9_version_short_input_fails [71, 73, 70] (by decide)⟩

/-- Claim C10: when Block parsing succeeds, any bytes of the bounded
block body left unconsumed by the inner Image or Extension decoder are
silently discarded: whatever leftover the inner decoder reports, the
Block parse succeeds and its remainder is exactly the input after the
body, i.e. it starts at the next comma, bang or semicolon (or is empty). -/
theorem c10_block_leftover_discarded (snt body rest : Bytes)
    (hsnt : snt ≠ [])
    (hsin : ∀ c ∈ snt, c = 44 ∨ c = 33)
    (hbody : body ≠ [])
    (hbin : ∀ c ∈ body, ¬(c = 44 ∨ c = 33 ∨ c = 59))
    (hrest : rest = [] ∨ ∃ d tl, rest = d :: tl ∧ (d = 44 ∨ d = 33 ∨ d = 59)) :
    (∀ img leftover, snt.headD 0 = 44 → Image.parse body = some (img, leftover) →
      Block.parse (snt ++ body ++ rest) = some (Block.Image img, rest)) ∧
    (∀ ext leftover, snt.headD 0 = 33 → Extension.parse body = some (ext, leftover) →
      Block.parse (snt ++ body ++ rest) = some (Block.Extension ext, rest)) := by
  have contains_false : ∀ c : Nat, c ≠ 44 → c ≠ 33 → c ≠ 59 →
      (([44, 33, 59] : Bytes).contains c) = false := by
    intro c h44 h33 h59
    simp only [List.contains, List.elem_cons, List.elem_nil]
    have e44 : (c == 44) = false := by simp [h44]
    have e33 : (c == 33) = false := by simp [h33]
    have e59 : (c == 59) = false := by simp [h59]
    simp [e44, e33, e59]
  have contains2_false : ∀ c : Nat, c ≠ 44 → c ≠ 33 →
      (([44, 33] : Bytes).contains c) = false := by
    intro c h44 h33
    simp only [List.contains, List.elem_cons, List.elem_nil]
    have e44 : (c == 44) = false := by simp [h44]
    have e33 : (c == 33) = false := by simp [h33]
    simp [e44, e33]
  have hsall : ∀ c ∈ snt, (fun c => ([44, 33] : Bytes).contains c) c = true := by
    intro c hc
    rcases hsin c hc with rfl | rfl <;> rfl
  have hball : ∀ c ∈ body, (fun c => !(([44, 33, 59] : Bytes).contains c)) c = true := by
    intro c hc
    have h := hbin c hc
    push_neg at h
    simp only [contains_false c h.1 h.2.1 h.2.2]
    rfl
  have ht1 : (snt ++ (body ++ rest)).takeWhile (fun c => ([44, 33] : Bytes).contains c) = snt := by
    rw [takeWhile_all_append hsall]
    cases body with
    | nil => exact absurd rfl hbody
    | cons b0 btl =>
      have h := hbin b0 (by simp)
      push_neg at h
      rw [List.cons_append, List.takeWhile_cons]
      simp only [contains2_false b0 h.1 h.2.1]
      simp
  have ht2 : (body ++ rest).takeWhile (fun c => !(([44, 33, 59] : Bytes).contains c)) = body := by
    rw [takeWhile_all_append hball]
    rcases hrest with rfl | ⟨d, tl, rfl, hd⟩
    · simp
    · have hdf : (!(([44, 33, 59] : Bytes).contains d)) = false := by
        rcases hd with rfl | rfl | rfl <;> rfl
      rw [List.takeWhile_cons]
      simp only [hdf]
      simp
  have h1 : isAP [44, 33] (snt ++ (body ++ rest)) = some (snt, body ++ rest) := by
    unfold isAP takeWhile1P
    rw [ht1, if_neg hsnt, List.drop_left]
  have h2 : takeWhile1P (fun c => !(([44, 33, 59] : Bytes).contains c)) (body ++ rest) =
      some (body, rest) := by
    unfold takeWhile1P
    rw [ht2, if_neg hbody, List.drop_left]
  constructor
  · intro img leftover hhead himg
    unfold Block.parse pairP
    rw [List.append_assoc, h1]
    simp only []
    rw [h2]
    simp only []
    rw [hhead]
    simp only []
    rw [himg]
  · intro ext leftover hhead hext
    unfold Block.parse pairP
    rw [List.append_assoc, h1]
    simp only []
    rw [h2]
    simp only []
    rw [hhead]
    simp only []
    rw [hext]

/-- Witness for C10: the extension body 50 97 0 120 parses with a
nonempty leftover 120, yet the enclosing Block parse succeeds and its
remainder starts at the following semicolon. -/
theorem c10_witness :
    Extension.parse [50, 97, 0, 120] =
      some (Extension.mk ExtensionType.Unknown [SubBlock.mk [97]], [120]) ∧
    Block.parse ([33] ++ [50, 97, 0, 120] ++ [59]) =
      some (Block.Extension (Extension.mk ExtensionType.Unknown [SubBlock.mk [97]]), [59]) :=
  ⟨rfl,
    (c10_block_leftover_discarded [33] [50, 97, 0, 120] [59] (by decide) (by decide) (by decide)
        (by decide) (Or.inr ⟨59, [], rfl, Or.inr (Or.inr rfl)⟩)).2
      (Extension.mk ExtensionType.Unknown [SubBlock.mk [97]]) [120] rfl rfl⟩

/-- Claim C8: Version parsing succeeds exactly on inputs whose 6-byte
prefix is GIF87a or GIF89a, yielding Gif87a respectively Gif89a, and in
either case it consumes exactly 6 bytes. -/
theorem c8_version_characterization (s : Bytes) (v : Version) (r : Bytes) :
    Version.parse s = some (v, r) ↔
      (((s.take 6 = gif87sig ∧ v = Version.Gif87a) ∨
        (s.take 6 = gif89sig ∧ v = Version.Gif89a)) ∧ r = s.drop 6) := by
  have hne : gif87sig ≠ gif89sig := by decide
  have l87 : gif87sig.length = 6 := rfl
  have l89 : gif89sig.length = 6 := rfl
  unfold Version.parse mapP altP tagP
  rw [l87, l89]
  by_cases h87 : s.take 6 = gif87sig
  · simp [h87, hne]
    aesop
  · by_cases h89 : s.take 6 = gif89sig
    · simp [h87, h89, hne]
      aesop
    · simp [h87, h89]

/-- Claim C5: top-level Gif parsing succeeds with value g and remainder
rest exactly when the input decomposes as a valid signature+version, then
a logical screen descriptor, then one or more blocks, followed directly
by the trailer byte 59, which is consumed (the blocks leave exactly
59 :: rest and the parse returns rest). In particular it fails when the
input runs out before a trailer, and when zero blocks precede the
trailer. -/
theorem c5_gif_grammar (input : Bytes) (g : Gif) (rest : Bytes) :
    Gif.parse input = some (g, rest) ↔
      ∃ r1 r2 bs,
        Version.parse input = some (g.header.version, r1) ∧
        LogicalScreenDescriptor.parse r1 = some (g.header.screen_descriptor, r2) ∧
        many1P Block.parse r2 = some (bs, 59 :: rest) ∧
        g.blocks = bs ∧ bs ≠ [] := by
  constructor
  · intro h
    unfold Gif.parse at h
    obtain ⟨a, ha, hg⟩ := mapP_eq_some.mp h
    obtain ⟨r1, bb, hpair, htag⟩ := terminatedP_eq_some.mp ha
    obtain ⟨rm, hhdr, hblocks⟩ := pairP_eq_some.mp hpair
    obtain ⟨hrr, _⟩ := tagP_single_iff.mp htag
    unfold Header.parse at hhdr
    obtain ⟨hv, hv2, ha1⟩ := mapP_eq_some.mp hhdr
    obtain ⟨rv, hver, hlsd⟩ := pairP_eq_some.mp hv2
    subst hg
    rw [hrr] at hblocks
    refine ⟨rv, rm, a.2, ?_, ?_, hblocks, rfl, many1P_ne_nil hblocks⟩
    · simpa [ha1] using hver
    · simpa [ha1] using hlsd
  · rintro ⟨r1, r2, bs, hver, hlsd, hblocks, hbs, hne⟩
    unfold Gif.parse
    apply mapP_eq_some.mpr
    refine ⟨(g.header, bs), ?_, ?_⟩
    · apply terminatedP_eq_some.mpr
      refine ⟨59 :: rest, [59], ?_, tagP_single_iff.mpr ⟨rfl, rfl⟩⟩
      apply pairP_eq_some.mpr
      refine ⟨r2, ?_, hblocks⟩
      unfold Header.parse
      apply mapP_eq_some.mpr
      refine ⟨(g.header.version, g.header.screen_descriptor), ?_, rfl⟩
      apply pairP_eq_some.mpr
      exact ⟨r1, hver, hlsd⟩
    · show g = Gif.mk g.header bs
      rw [← hbs]

end Yair
